import Mathlib

/-!
Verification of the duration grammar engine and the CLI driver of the
ToDoom (`prac`) repository.

The repository's `src/main.rs` declares a `time` module (duration parser
`time::parse_time_span` and formatter `time::FlatTime`) whose source file is
not part of the provided sources, so the parser, unit resolver, accumulator
and formatter below are modelled from the specification.  The CLI driver
(`process_subcommand` / `main`) is embedded from `src/main.rs` directly,
with the interactive and persistence collaborators (dialoguer prompts,
`application::State` methods, `handle_transition`) abstracted as parameters.
-/

/-! ## Character classes

Modelled from the spec: `integer` is an unsigned decimal literal,
`unit-label` is one or more letters, whitespace may appear around the
integer and between terms. -/

/-- Decimal digit characters `0`-`9`. -/
def isDigitC (c : Char) : Bool := 48 ≤ c.toNat && c.toNat ≤ 57

/-- ASCII letters `A`-`Z`, `a`-`z`. -/
def isAlphaC (c : Char) : Bool :=
  (65 ≤ c.toNat && c.toNat ≤ 90) || (97 ≤ c.toNat && c.toNat ≤ 122)

/-- ASCII whitespace: space, tab, line feed, carriage return. -/
def isWsC (c : Char) : Bool :=
  c.toNat == 32 || c.toNat == 9 || c.toNat == 10 || c.toNat == 13

/-- ASCII lowercasing of a single character. -/
def toLowerC (c : Char) : Char :=
  if 65 ≤ c.toNat ∧ c.toNat ≤ 90 then Char.ofNat (c.toNat + 32) else c

/-! ## Data model -/

/-- Modelled from the spec: the seven canonical unit kinds. -/
inductive UnitKind where
  | second
  | minute
  | hour
  | day
  | week
  | month
  | year
deriving DecidableEq, Repr

/-- Modelled from the spec: fixed seconds-per-unit constants
(Second=1, Minute=60, Hour=3600, Day=86400, Week=7·Day, Month=30·Day,
Year=365·Day). -/
def unitSeconds : UnitKind → Nat
  | .second => 1
  | .minute => 60
  | .hour => 3600
  | .day => 86400
  | .week => 7 * 86400
  | .month => 30 * 86400
  | .year => 365 * 86400

/-- Modelled from the spec: the maximum representable duration, in seconds.
The spec fixes no constant, only that arithmetic "caps at the maximum
representable duration on overflow"; we take a 64-bit signed seconds
count. -/
def maxDuration : Nat := 2 ^ 63 - 1

/-! ## Unit resolver

Modelled from the spec: case-insensitive alias table, except that the
single letters `m` / `M` are case-fixed to Minute / Month. -/

/-- Alias table on already-lowercased labels. -/
def resolveLower : List Char → Option UnitKind
  | ['s'] => some .second
  | ['s', 'e', 'c'] => some .second
  | ['s', 'e', 'c', 'o', 'n', 'd'] => some .second
  | ['s', 'e', 'c', 'o', 'n', 'd', 's'] => some .second
  | ['m', 'i', 'n'] => some .minute
  | ['m', 'i', 'n', 'u', 't', 'e'] => some .minute
  | ['m', 'i', 'n', 'u', 't', 'e', 's'] => some .minute
  | ['h'] => some .hour
  | ['h', 'r'] => some .hour
  | ['h', 'o', 'u', 'r'] => some .hour
  | ['h', 'o', 'u', 'r', 's'] => some .hour
  | ['d'] => some .day
  | ['d', 'a', 'y'] => some .day
  | ['d', 'a', 'y', 's'] => some .day
  | ['w'] => some .week
  | ['w', 'e', 'e', 'k'] => some .week
  | ['w', 'e', 'e', 'k', 's'] => some .week
  | ['m', 'o', 'n', 't', 'h'] => some .month
  | ['m', 'o', 'n', 't', 'h', 's'] => some .month
  | ['y'] => some .year
  | ['y', 'e', 'a', 'r'] => some .year
  | ['y', 'e', 'a', 'r', 's'] => some .year
  | _ => none

/-- Modelled from the spec: `resolve(label) -> UnitKind | UnitError`.
Lowercase `m` always resolves to Minute and uppercase `M` to Month,
overriding the otherwise case-insensitive matching. -/
def resolve (l : List Char) : Option UnitKind :=
  if l = ['m'] then some .minute
  else if l = ['M'] then some .month
  else resolveLower (l.map toLowerC)

/-! ## Numerals -/

/-- Value of a list of decimal digit characters. -/
def digitsToNat (ds : List Char) : Nat :=
  ds.foldl (fun a c => 10 * a + (c.toNat - 48)) 0

/-- The decimal digit character for a value below ten. -/
def digitChar (d : Nat) : Char := Char.ofNat (48 + d)

/-- Decimal rendering, fuel-bounded so that it is structural; the fuel
only needs to exceed the number of digits. -/
def natReprAux : Nat → Nat → List Char
  | 0, _ => []
  | fuel + 1, n =>
    if n < 10 then [digitChar n]
    else natReprAux fuel (n / 10) ++ [digitChar (n % 10)]

/-- Decimal rendering of a natural number, most significant digit first. -/
def natRepr (n : Nat) : List Char := natReprAux (n + 1) n

/-! ## Tokenizer / grammar

Modelled from the spec: `span := term+`; `term := ws* integer ws* unit-label`;
the trimmed input must be fully consumed; errors carry the offending
substring. -/

/-- A parse error with its offending substring. -/
structure ParseErr where
  msg : String
  offending : List Char
deriving DecidableEq

/-- Strip surrounding whitespace. -/
def trimChars (l : List Char) : List Char :=
  ((l.dropWhile isWsC).reverse.dropWhile isWsC).reverse

/-- Scan one term: optional whitespace, an integer, optional whitespace,
a unit label.  Returns the resolved term and the unconsumed remainder. -/
def parseTerm (cs : List Char) : Except ParseErr ((Nat × UnitKind) × List Char) :=
  let cs1 := cs.dropWhile isWsC
  let ds := cs1.takeWhile isDigitC
  let r1 := cs1.dropWhile isDigitC
  if ds.isEmpty then .error ⟨"expected integer", cs1⟩
  else
    let r2 := r1.dropWhile isWsC
    let ls := r2.takeWhile isAlphaC
    let rest := r2.dropWhile isAlphaC
    if ls.isEmpty then .error ⟨"expected unit label", cs1⟩
    else
      match resolve ls with
      | some u => .ok ((digitsToNat ds, u), rest)
      | none => .error ⟨"unrecognized unit", ls⟩

/-- Scan one or more terms until the input is exhausted; any leftover
that is not a well-formed term is a hard error.  `fuel` bounds the
recursion; `parseTimeSpan` supplies enough for any input. -/
def parseTerms : Nat → List Char → Except ParseErr (List (Nat × UnitKind))
  | 0, cs => .error ⟨"no progress", cs⟩
  | fuel + 1, cs =>
    match parseTerm cs with
    | .error e => .error e
    | .ok (t, rest) =>
      if rest.isEmpty then .ok [t]
      else
        match parseTerms fuel rest with
        | .error e => .error e
        | .ok ts => .ok (t :: ts)

/-! ## Span accumulator -/

/-- Saturating addition, capped at `maxDuration`. -/
def satAdd (a b : Nat) : Nat := min (a + b) maxDuration

/-- Modelled from the spec: sum `quantity × seconds-per-unit` over all terms
with saturating arithmetic. -/
def accumulate (ts : List (Nat × UnitKind)) : Nat :=
  ts.foldl (fun a t => satAdd a (t.1 * unitSeconds t.2)) 0

/-- Modelled from the spec: `parse(input) -> Duration | ParseError`,
the composition tokenizer → unit resolver → span accumulator. -/
def parseTimeSpan (s : String) : Except ParseErr Nat :=
  let cs := trimChars s.data
  if cs.isEmpty then .error ⟨"no terms found", []⟩
  else
    match parseTerms cs.length cs with
    | .error e => .error e
    | .ok ts => .ok (accumulate ts)

/-! ## Span formatter (FlatTime) -/

/-- The seven units in descending size order. -/
def unitsDesc : List UnitKind :=
  [.year, .month, .week, .day, .hour, .minute, .second]

/-- The single-character abbreviation emitted for each unit. -/
def unitAbbrev : UnitKind → Char
  | .year => 'Y'
  | .month => 'M'
  | .week => 'w'
  | .day => 'd'
  | .hour => 'h'
  | .minute => 'm'
  | .second => 's'

/-- Greedy decomposition: for each unit take the maximal whole multiple
fitting the remainder, then continue with the remainder. -/
def flatChainAux : Nat → List UnitKind → List (Nat × UnitKind)
  | _, [] => []
  | rem, u :: us => (rem / unitSeconds u, u) :: flatChainAux (rem % unitSeconds u) us

/-- The full greedy chain of a duration over all seven units. -/
def flatChain (d : Nat) : List (Nat × UnitKind) := flatChainAux d unitsDesc

/-- Modelled from the spec: `FlatTime`, the greedy decomposition with
zero-count units omitted. -/
def flatTimeComps (d : Nat) : List (Nat × UnitKind) :=
  (flatChain d).filter (fun t => t.1 != 0)

/-- Render one component as `"<count><unit-abbrev>"`. -/
def renderComp (t : Nat × UnitKind) : List Char :=
  natRepr t.1 ++ [unitAbbrev t.2]

/-- Modelled from the spec: `format(total) -> text`, joining the components
with no separator, with a fixed zero representation. -/
def format (d : Nat) : String :=
  let comps := flatTimeComps d
  if comps.isEmpty then "0s" else ⟨(comps.map renderComp).flatten⟩

/-- Total seconds contributed by a list of (quantity, unit) components,
without saturation. -/
def compsSum (l : List (Nat × UnitKind)) : Nat :=
  (l.map (fun t => t.1 * unitSeconds t.2)).sum

/-- Iterated remainder of a duration through a list of units. -/
def modChain (r : Nat) (us : List UnitKind) : Nat :=
  us.foldl (fun a u => a % unitSeconds u) r

/-- The unit one step larger in the descending chain, if any. -/
def nextLarger : UnitKind → Option UnitKind
  | .year => none
  | .month => some .year
  | .week => some .month
  | .day => some .week
  | .hour => some .day
  | .minute => some .hour
  | .second => some .minute

/-! ## Declarative grammar

A declarative (non-algorithmic) rendering of the spec grammar
`span := term+`, `term := ws* integer ws* unit-label`, used to state that
the parser succeeds exactly on well-formed input. -/

/-- The raw text segments of one grammar term. -/
structure RawTerm where
  ws1 : List Char
  digits : List Char
  ws2 : List Char
  label : List Char

/-- The characters a term occupies. -/
def RawTerm.chars (t : RawTerm) : List Char :=
  t.ws1 ++ t.digits ++ t.ws2 ++ t.label

/-- Well-formedness of one term: whitespace, a nonempty digit run, more
whitespace, and a nonempty letter run naming a known unit. -/
def RawTerm.OK (t : RawTerm) : Prop :=
  (∀ c ∈ t.ws1, isWsC c = true) ∧
  t.digits ≠ [] ∧ (∀ c ∈ t.digits, isDigitC c = true) ∧
  (∀ c ∈ t.ws2, isWsC c = true) ∧
  t.label ≠ [] ∧ (∀ c ∈ t.label, isAlphaC c = true) ∧
  (resolve t.label).isSome = true

/-- The trimmed input is a concatenation of one or more well-formed
terms. -/
def IsSpan (cs : List Char) : Prop :=
  ∃ ts : List RawTerm, ts ≠ [] ∧ (∀ t ∈ ts, t.OK) ∧
    cs = (ts.map RawTerm.chars).flatten

/-- `xs` occurs as a contiguous segment of `ys`. -/
def SubSeg (xs ys : List Char) : Prop :=
  ∃ a b, ys = a ++ xs ++ b

/-! ## CLI driver (embedded from `src/main.rs`)

`process_subcommand` and `main` are embedded directly from the source.
The interactive collaborators (dialoguer prompts, `State::find_name`,
`State::get_notes`, `utils::long_edit`, `State::list`,
`State::get_user_config`) and the persistence collaborators
(`serde_json` state parsing/serialisation, `update_version`,
`handle_transition`) are external to the specified core and appear as
abstract parameters. -/

/-- An application-level error (`anyhow::Error`). -/
structure PracErr where
  msg : String
deriving DecidableEq

/-- The user configuration (`config.grace_period`). -/
structure Config where
  gracePeriod : Nat
deriving DecidableEq

/-- The CLI subcommands of `cli::SubCommand`.  Durations are second
counts; optional fields mirror the optional CLI arguments. -/
inductive SubCommand where
  | list (cumulative period danger : Bool)
  | add (name : Option String) (period : Option Nat) (interactive : Bool)
  | log (name : Option String) (time : Option Nat) (interactive : Bool)
  | notes (name : Option String) (newNotes : Option String) (interactive : Bool)
  | reset
  | stateLocation
  | editPeriod (name : Option String) (period : Option Nat) (interactive : Bool)
  | remove (name : Option String) (interactive : Bool)
  | rename (currentName newName : Option String) (interactive : Bool)
  | config (gracePeriod : Option Nat) (interactive : Bool)

/-- The state transitions of `application::StateTransition`. -/
inductive StateTransition where
  | add (name : String) (period : Nat)
  | log (name : String) (time : Nat)
  | notes (name : String) (notes : String)
  | reset
  | editPeriod (name : String) (newPeriod : Nat)
  | remove (name : String)
  | rename (currentName newName : String)
  | config (newConfig : Config)

/-- Results of the interactive and application collaborators, indexed by
the prompt or state they are invoked with. -/
structure Effects (σ : Type) where
  inputLine : String → Except PracErr String
  confirm : String → Except PracErr Bool
  findName : σ → Except PracErr String
  getNotes : σ → String → Except PracErr String
  longEdit : Option String → Except PracErr String
  listPractices : σ → Bool → Bool → Bool → Except PracErr Unit
  getUserConfig : σ → Config

/-- `Option::context`: unwrap or fail with a message. -/
def require {α : Type} (o : Option α) (msg : String) : Except PracErr α :=
  match o with
  | some a => Except.ok a
  | none => Except.error ⟨msg⟩

/-- Prompt used by `Add` in interactive mode. -/
def addNamePrompt : String := "What would you like to practice?"

/-- Prompt used when asking for a practice period. -/
def periodPrompt (name : String) : String :=
  "How often (not how long) would you like to practice \"" ++ name ++ "?\""

/-- Prompt used when logging practice time. -/
def logPrompt (name : String) : String :=
  "How long did you practice \"" ++ name ++ "?\""

/-- Confirmation prompt of `EditPeriod`. -/
def editPeriodConfirmPrompt (name display : String) : String :=
  "Change period of \"" ++ name ++ "\" to " ++ display ++ "?"

/-- Confirmation prompt of `Remove`. -/
def removeConfirmPrompt (name : String) : String :=
  "Remove practice \"" ++ name ++ "?\""

/-- `get_time_span_interactive`: read a line and parse it as a duration. -/
def getTimeSpanInteractive {σ : Type} (eff : Effects σ) (msg : String) :
    Except PracErr Nat :=
  match eff.inputLine msg with
  | .error e => .error e
  | .ok txt =>
    match parseTimeSpan txt with
    | .error pe => .error ⟨pe.msg⟩
    | .ok d => .ok d

/-- `process_subcommand`, embedded from `src/main.rs:153-309`.  `List` and
`StateLocation` return early with the state unchanged; every other
subcommand builds a `StateTransition` and applies `handle_transition`.
`Config` in interactive mode hits `unimplemented!()` in the source; the
resulting panic is modelled as an error (in either case `main` performs no
state write). -/
def processSubcommand {σ : Type} (eff : Effects σ)
    (handleTransition : σ → StateTransition → Except PracErr σ)
    (state : σ) (cmd : SubCommand) : Except PracErr σ :=
  match cmd with
  | .list cumulative period danger =>
    match eff.listPractices state cumulative period danger with
    | .error e => .error e
    | .ok _ => .ok state
  | .add name period interactive =>
    match (if interactive then eff.inputLine addNamePrompt
           else require name "no practice name provided") with
    | .error e => .error e
    | .ok nm =>
      match (if interactive then getTimeSpanInteractive eff (periodPrompt nm)
             else require period "no period provided") with
      | .error e => .error e
      | .ok per => handleTransition state (.add nm per)
  | .log name time interactive =>
    match (if interactive then eff.findName state
           else require name "no practice name provided") with
    | .error e => .error e
    | .ok nm =>
      match (if interactive then getTimeSpanInteractive eff (logPrompt nm)
             else require time "no time provided") with
      | .error e => .error e
      | .ok t => handleTransition state (.log nm t)
  | .notes name newNotes interactive =>
    match (if interactive then eff.findName state
           else require name "no practice name provided") with
    | .error e => .error e
    | .ok nm =>
      match (if interactive then
               (match eff.getNotes state nm with
                | .error e => .error e
                | .ok old => eff.longEdit (some old))
             else require newNotes "no notes provided") with
      | .error e => .error e
      | .ok ns => handleTransition state (.notes nm ns)
  | .reset => handleTransition state .reset
  | .stateLocation => .ok state
  | .editPeriod name period interactive =>
    match (if interactive then eff.findName state
           else require name "no practice name provided") with
    | .error e => .error e
    | .ok nm =>
      match (if interactive then getTimeSpanInteractive eff (periodPrompt nm)
             else require period "no period provided") with
      | .error e => .error e
      | .ok per =>
        match eff.confirm (editPeriodConfirmPrompt nm (format per)) with
        | .error e => .error e
        | .ok true => handleTransition state (.editPeriod nm per)
        | .ok false => .error ⟨"aborted"⟩
  | .remove name interactive =>
    match (if interactive then eff.findName state
           else require name "no practice name provided") with
    | .error e => .error e
    | .ok nm =>
      match eff.confirm (removeConfirmPrompt nm) with
      | .error e => .error e
      | .ok true => handleTransition state (.remove nm)
      | .ok false => .error ⟨"aborted"⟩
  | .rename currentName newName interactive =>
    match (if interactive then eff.findName state
           else require currentName "no current practice name provided") with
    | .error e => .error e
    | .ok cur =>
      match (if interactive then eff.findName state
             else require newName "no new practice name provided") with
      | .error e => .error e
      | .ok nw => handleTransition state (.rename cur nw)
  | .config gracePeriod interactive =>
    if interactive then .error ⟨"unimplemented"⟩
    else
      match gracePeriod with
      | some g => handleTransition state (.config ⟨g⟩)
      | none => handleTransition state (.config (eff.getUserConfig state))

/-- The observable outcome of one `main` invocation: the process result,
the final content of the state file, and whether a write occurred. -/
structure MainResult (σ : Type) where
  outcome : Except PracErr Unit
  file : Option String
  wrote : Bool

/-- `main`, embedded from `src/main.rs:311-334`: read or initialise the
state, run `process_subcommand`, and only on success recreate the state
file with the version updated. -/
def runMain {σ : Type} (eff : Effects σ)
    (handleTransition : σ → StateTransition → Except PracErr σ)
    (parseState : String → Except PracErr σ) (freshState : σ)
    (serialize : σ → String) (updateVersion : σ → σ)
    (file : Option String) (cmd : SubCommand) : MainResult σ :=
  match (match file with
         | some content => parseState content
         | none => Except.ok freshState) with
  | .error e => ⟨.error e, file, false⟩
  | .ok st0 =>
    match processSubcommand eff handleTransition st0 cmd with
    | .error e => ⟨.error e, file, false⟩
    | .ok st1 => ⟨.ok (), some (serialize (updateVersion st1)), true⟩

/-- Concrete effects used to instantiate the driver theorems: every
prompt answers, every confirmation is declined. -/
def effDecline : Effects Nat :=
  ⟨fun _ => .ok "90m", fun _ => .ok false, fun _ => .ok "steno",
   fun _ _ => .ok "", fun _ => .ok "", fun _ _ _ _ => .ok (), fun _ => ⟨0⟩⟩

/-- Concrete transition handler used to instantiate the driver theorems. -/
def htId : Nat → StateTransition → Except PracErr Nat := fun s _ => .ok s

/-- Concrete state parser used to instantiate the driver theorems. -/
def psConst : String → Except PracErr Nat := fun _ => .ok 7

/-- Concrete serializer used to instantiate the driver theorems. -/
def serShow : Nat → String := fun n => String.mk (natRepr n)

/-- Concrete version updater used to instantiate the driver theorems. -/
def uvSucc : Nat → Nat := fun n => n + 1

/-! ## Sanity checks on the model (spec §8 testable properties) -/

example : parseTimeSpan "1day" = .ok 86400 := by rfl
example : parseTimeSpan "1d" = .ok 86400 := by rfl
example : parseTimeSpan "3days15hours" = .ok (3 * 86400 + 15 * 3600) := by rfl
example : parseTimeSpan "1w4d" = .ok (11 * 86400) := by rfl
example : parseTimeSpan "4M" = .ok (4 * 30 * 86400) := by rfl
example : parseTimeSpan "4m" = .ok (4 * 60) := by rfl
example : parseTimeSpan "1 day" = .ok 86400 := by rfl
example : parseTimeSpan "1  day" = .ok 86400 := by rfl
example : parseTimeSpan "1Y 2M 3w 4d 5h 6m 7s" =
    .ok (31536000 + 2 * 2592000 + 3 * 604800 + 4 * 86400 + 5 * 3600 + 6 * 60 + 7) := by rfl
example : parseTimeSpan "" = .error ⟨"no terms found", []⟩ := by rfl
example : parseTimeSpan "5" = .error ⟨"expected unit label", ['5']⟩ := by rfl
example : parseTimeSpan "five days" = .error ⟨"expected integer", "five days".data⟩ := by rfl
example : format 0 = "0s" := by rfl
example : format 86400 = "1d" := by rfl
example : format 5400 = "1h30m" := by rfl

/-! ## Character class lemmas -/

theorem digit_not_ws {c : Char} (h : isDigitC c = true) : isWsC c = false := by
  simp only [isDigitC, Bool.and_eq_true, decide_eq_true_eq] at h
  simp only [isWsC, Bool.or_eq_false_iff, beq_eq_false_iff_ne, ne_eq]
  omega

theorem digit_not_alpha {c : Char} (h : isDigitC c = true) : isAlphaC c = false := by
  simp only [isDigitC, Bool.and_eq_true, decide_eq_true_eq] at h
  simp only [isAlphaC, Bool.or_eq_false_iff, Bool.and_eq_false_iff,
    decide_eq_false_iff_not, not_le]
  omega

theorem alpha_not_ws {c : Char} (h : isAlphaC c = true) : isWsC c = false := by
  simp only [isAlphaC, Bool.or_eq_true, Bool.and_eq_true, decide_eq_true_eq] at h
  simp only [isWsC, Bool.or_eq_false_iff, beq_eq_false_iff_ne, ne_eq]
  omega

theorem alpha_not_digit {c : Char} (h : isAlphaC c = true) : isDigitC c = false := by
  simp only [isAlphaC, Bool.or_eq_true, Bool.and_eq_true, decide_eq_true_eq] at h
  simp only [isDigitC, Bool.and_eq_false_iff, decide_eq_false_iff_not, not_le]
  omega

theorem ws_not_digit {c : Char} (h : isWsC c = true) : isDigitC c = false := by
  simp only [isWsC, Bool.or_eq_true, beq_iff_eq] at h
  simp only [isDigitC, Bool.and_eq_false_iff, decide_eq_false_iff_not, not_le]
  omega

theorem ws_not_alpha {c : Char} (h : isWsC c = true) : isAlphaC c = false := by
  simp only [isWsC, Bool.or_eq_true, beq_iff_eq] at h
  simp only [isAlphaC, Bool.or_eq_false_iff, Bool.and_eq_false_iff,
    decide_eq_false_iff_not, not_le]
  omega

/-! ## takeWhile / dropWhile lemmas -/

theorem takeWhile_all_append {p : Char → Bool} {l1 : List Char} (l2 : List Char)
    (h : ∀ c ∈ l1, p c = true) :
    (l1 ++ l2).takeWhile p = l1 ++ l2.takeWhile p := by
  induction l1 with
  | nil => simp
  | cons a t ih =>
    simp only [List.cons_append, List.takeWhile_cons, h a (by simp)]
    simp [ih (fun c hc => h c (by simp [hc]))]

theorem dropWhile_all_append {p : Char → Bool} {l1 : List Char} (l2 : List Char)
    (h : ∀ c ∈ l1, p c = true) :
    (l1 ++ l2).dropWhile p = l2.dropWhile p := by
  induction l1 with
  | nil => simp
  | cons a t ih =>
    simp only [List.cons_append, List.dropWhile_cons, h a (by simp)]
    simp [ih (fun c hc => h c (by simp [hc]))]

theorem takeWhile_head_false {p : Char → Bool} {l : List Char}
    (h : ∀ c t, l = c :: t → p c = false) : l.takeWhile p = [] := by
  cases l with
  | nil => rfl
  | cons a t => simp [List.takeWhile_cons, h a t rfl]

theorem dropWhile_head_false {p : Char → Bool} {l : List Char}
    (h : ∀ c t, l = c :: t → p c = false) : l.dropWhile p = l := by
  cases l with
  | nil => rfl
  | cons a t => simp [List.dropWhile_cons, h a t rfl]

theorem trimChars_no_ws {l : List Char} (h : ∀ c ∈ l, isWsC c = false) :
    trimChars l = l := by
  unfold trimChars
  have h1 : l.dropWhile isWsC = l := by
    apply dropWhile_head_false
    intro c t hct
    exact h c (by rw [hct]; simp)
  rw [h1]
  have h2 : l.reverse.dropWhile isWsC = l.reverse := by
    apply dropWhile_head_false
    intro c t hct
    apply h
    have : c ∈ l.reverse := by rw [hct]; simp
    simpa using this
  rw [h2, List.reverse_reverse]

/-! ## Numeral lemmas -/

theorem digitsToNat_append (l : List Char) (c : Char) :
    digitsToNat (l ++ [c]) = 10 * digitsToNat l + (c.toNat - 48) := by
  simp [digitsToNat, List.foldl_append]

theorem digitChar_isDigit : ∀ d, d < 10 → isDigitC (digitChar d) = true := by decide

theorem digitChar_toNat : ∀ d, d < 10 → (digitChar d).toNat = 48 + d := by decide

theorem natReprAux_spec :
    ∀ fuel n, n < fuel →
      (∀ c ∈ natReprAux fuel n, isDigitC c = true) ∧
      natReprAux fuel n ≠ [] ∧
      digitsToNat (natReprAux fuel n) = n := by
  intro fuel
  induction fuel with
  | zero => intro n h; omega
  | succ f ih =>
    intro n h
    by_cases h10 : n < 10
    · refine ⟨?_, ?_, ?_⟩
      · intro c hc
        simp only [natReprAux, if_pos h10, List.mem_singleton] at hc
        subst hc
        exact digitChar_isDigit n h10
      · simp [natReprAux, if_pos h10]
      · simp only [natReprAux, if_pos h10, digitsToNat, List.foldl_cons, List.foldl_nil]
        rw [digitChar_toNat n h10]
        omega
    · have hdiv : n / 10 < n := Nat.div_lt_self (by omega) (by omega)
      have hf : n / 10 < f := by omega
      obtain ⟨ihd, ihn, ihv⟩ := ih (n / 10) hf
      have hmod : n % 10 < 10 := Nat.mod_lt n (by omega)
      refine ⟨?_, ?_, ?_⟩
      · intro c hc
        simp only [natReprAux, if_neg h10, List.mem_append, List.mem_singleton] at hc
        rcases hc with hc | hc
        · exact ihd c hc
        · subst hc
          exact digitChar_isDigit _ hmod
      · simp [natReprAux, if_neg h10]
      · simp only [natReprAux, if_neg h10]
        rw [digitsToNat_append, ihv, digitChar_toNat _ hmod]
        omega

theorem natRepr_digits (n : Nat) : ∀ c ∈ natRepr n, isDigitC c = true :=
  (natReprAux_spec (n + 1) n (by omega)).1

theorem natRepr_ne_nil (n : Nat) : natRepr n ≠ [] :=
  (natReprAux_spec (n + 1) n (by omega)).2.1

theorem digitsToNat_natRepr (n : Nat) : digitsToNat (natRepr n) = n :=
  (natReprAux_spec (n + 1) n (by omega)).2.2

/-! ## Accumulator lemmas -/

theorem compsSum_cons (t : Nat × UnitKind) (ts : List (Nat × UnitKind)) :
    compsSum (t :: ts) = t.1 * unitSeconds t.2 + compsSum ts := by
  simp [compsSum]

theorem accumulate_from (ts : List (Nat × UnitKind)) :
    ∀ a, a ≤ maxDuration →
      ts.foldl (fun a t => satAdd a (t.1 * unitSeconds t.2)) a =
        min (a + compsSum ts) maxDuration := by
  induction ts with
  | nil =>
    intro a ha
    simp only [List.foldl_nil, compsSum, List.map_nil, List.sum_nil]
    omega
  | cons t ts ih =>
    intro a ha
    simp only [List.foldl_cons, compsSum_cons]
    rw [ih (satAdd a (t.1 * unitSeconds t.2)) (by simp only [satAdd]; omega)]
    simp only [satAdd]
    omega

theorem accumulate_eq (ts : List (Nat × UnitKind)) :
    accumulate ts = min (compsSum ts) maxDuration := by
  have h := accumulate_from ts 0 (by simp [maxDuration])
  simpa [accumulate] using h

theorem accumulate_le (ts : List (Nat × UnitKind)) :
    accumulate ts ≤ maxDuration := by
  rw [accumulate_eq]
  exact Nat.min_le_right _ _

/-! ## Segment lemmas -/

theorem SubSeg.rfl {x : List Char} : SubSeg x x := ⟨[], [], by simp⟩

theorem SubSeg.trans {x y z : List Char} (h1 : SubSeg x y) (h2 : SubSeg y z) :
    SubSeg x z := by
  obtain ⟨a1, b1, rfl⟩ := h1
  obtain ⟨a2, b2, rfl⟩ := h2
  exact ⟨a2 ++ a1, b1 ++ b2, by simp⟩

/-! ## Term-level parser lemmas -/

theorem parseTerm_exact (w1 ds w2 ls rest : List Char) (u : UnitKind)
    (hw1 : ∀ c ∈ w1, isWsC c = true)
    (hds : ds ≠ []) (hdall : ∀ c ∈ ds, isDigitC c = true)
    (hw2 : ∀ c ∈ w2, isWsC c = true)
    (hls : ls ≠ []) (hlall : ∀ c ∈ ls, isAlphaC c = true)
    (hres : resolve ls = some u)
    (hrest : ∀ c t, rest = c :: t → isAlphaC c = false) :
    parseTerm (w1 ++ (ds ++ (w2 ++ (ls ++ rest)))) =
      .ok ((digitsToNat ds, u), rest) := by
  obtain ⟨d, ds', rfl⟩ := List.exists_cons_of_ne_nil hds
  obtain ⟨a, ls', rfl⟩ := List.exists_cons_of_ne_nil hls
  have hd : isDigitC d = true := hdall d (by simp)
  have ha : isAlphaC a = true := hlall a (by simp)
  have hcs1 : (w1 ++ ((d :: ds') ++ (w2 ++ ((a :: ls') ++ rest)))).dropWhile isWsC =
      (d :: ds') ++ (w2 ++ ((a :: ls') ++ rest)) := by
    rw [dropWhile_all_append _ hw1]
    apply dropWhile_head_false
    intro c t hct
    simp only [List.cons_append, List.cons.injEq] at hct
    rw [← hct.1]
    exact digit_not_ws hd
  have htail_take : (w2 ++ ((a :: ls') ++ rest)).takeWhile isDigitC = [] := by
    apply takeWhile_head_false
    intro c t hct
    cases w2 with
    | nil =>
      simp only [List.nil_append, List.cons_append, List.cons.injEq] at hct
      rw [← hct.1]
      exact alpha_not_digit ha
    | cons w w2' =>
      simp only [List.cons_append, List.cons.injEq] at hct
      rw [← hct.1]
      exact ws_not_digit (hw2 w (by simp))
  have htail_drop : (w2 ++ ((a :: ls') ++ rest)).dropWhile isDigitC =
      w2 ++ ((a :: ls') ++ rest) := by
    apply dropWhile_head_false
    intro c t hct
    cases w2 with
    | nil =>
      simp only [List.nil_append, List.cons_append, List.cons.injEq] at hct
      rw [← hct.1]
      exact alpha_not_digit ha
    | cons w w2' =>
      simp only [List.cons_append, List.cons.injEq] at hct
      rw [← hct.1]
      exact ws_not_digit (hw2 w (by simp))
  have hds_take : ((d :: ds') ++ (w2 ++ ((a :: ls') ++ rest))).takeWhile isDigitC =
      d :: ds' := by
    rw [takeWhile_all_append _ hdall, htail_take, List.append_nil]
  have hds_drop : ((d :: ds') ++ (w2 ++ ((a :: ls') ++ rest))).dropWhile isDigitC =
      w2 ++ ((a :: ls') ++ rest) := by
    rw [dropWhile_all_append _ hdall, htail_drop]
  have hr2 : (w2 ++ ((a :: ls') ++ rest)).dropWhile isWsC = (a :: ls') ++ rest := by
    rw [dropWhile_all_append _ hw2]
    apply dropWhile_head_false
    intro c t hct
    simp only [List.cons_append, List.cons.injEq] at hct
    rw [← hct.1]
    exact alpha_not_ws ha
  have hls_take : ((a :: ls') ++ rest).takeWhile isAlphaC = a :: ls' := by
    rw [takeWhile_all_append _ hlall, takeWhile_head_false hrest, List.append_nil]
  have hls_drop : ((a :: ls') ++ rest).dropWhile isAlphaC = rest := by
    rw [dropWhile_all_append _ hlall, dropWhile_head_false hrest]
  simp only [parseTerm, hcs1, hds_take, hds_drop, hr2, hls_take, hls_drop,
    List.isEmpty_cons, Bool.false_eq_true, if_false, hres]

theorem parseTerm_ok_decomp {cs : List Char} {q : Nat} {u : UnitKind}
    {rest : List Char} (h : parseTerm cs = .ok ((q, u), rest)) :
    ∃ w1 ds w2 ls, cs = w1 ++ (ds ++ (w2 ++ (ls ++ rest))) ∧
      (∀ c ∈ w1, isWsC c = true) ∧ ds ≠ [] ∧ (∀ c ∈ ds, isDigitC c = true) ∧
      (∀ c ∈ w2, isWsC c = true) ∧ ls ≠ [] ∧ (∀ c ∈ ls, isAlphaC c = true) ∧
      resolve ls = some u ∧ q = digitsToNat ds ∧ rest.length + 2 ≤ cs.length := by
  simp only [parseTerm] at h
  split at h
  · exact absurd h (by simp)
  · rename_i h1
    split at h
    · exact absurd h (by simp)
    · rename_i h2
      split at h
      · rename_i u' hres
        simp only [Except.ok.injEq, Prod.mk.injEq] at h
        obtain ⟨⟨hq, hu⟩, hrest⟩ := h
        subst hu
        refine ⟨cs.takeWhile isWsC, (cs.dropWhile isWsC).takeWhile isDigitC,
          ((cs.dropWhile isWsC).dropWhile isDigitC).takeWhile isWsC,
          (((cs.dropWhile isWsC).dropWhile isDigitC).dropWhile isWsC).takeWhile isAlphaC,
          ?_, ?_, ?_, ?_, ?_, ?_, ?_, ?_, ?_, ?_⟩
        · rw [← hrest]
          conv_lhs => rw [← List.takeWhile_append_dropWhile isWsC cs]
          congr 1
          conv_lhs => rw [← List.takeWhile_append_dropWhile isDigitC (cs.dropWhile isWsC)]
          congr 1
          conv_lhs =>
            rw [← List.takeWhile_append_dropWhile isWsC
              ((cs.dropWhile isWsC).dropWhile isDigitC)]
          congr 1
          conv_lhs =>
            rw [← List.takeWhile_append_dropWhile isAlphaC
              (((cs.dropWhile isWsC).dropWhile isDigitC).dropWhile isWsC)]
        · intro c hc
          exact List.mem_takeWhile_imp hc
        · simpa [List.isEmpty_iff] using h1
        · intro c hc
          exact List.mem_takeWhile_imp hc
        · intro c hc
          exact List.mem_takeWhile_imp hc
        · simpa [List.isEmpty_iff] using h2
        · intro c hc
          exact List.mem_takeWhile_imp hc
        · exact hres
        · exact hq.symm
        · have e1 := List.takeWhile_append_dropWhile isWsC cs
          have e2 := List.takeWhile_append_dropWhile isDigitC (cs.dropWhile isWsC)
          have e3 := List.takeWhile_append_dropWhile isWsC
            ((cs.dropWhile isWsC).dropWhile isDigitC)
          have e4 := List.takeWhile_append_dropWhile isAlphaC
            (((cs.dropWhile isWsC).dropWhile isDigitC).dropWhile isWsC)
          have l1 := congrArg List.length e1
          have l2 := congrArg List.length e2
          have l3 := congrArg List.length e3
          have l4 := congrArg List.length e4
          simp only [List.length_append] at l1 l2 l3 l4
          have hdne : (cs.dropWhile isWsC).takeWhile isDigitC ≠ [] := by
            simpa [List.isEmpty_iff] using h1
          have hlne :
              (((cs.dropWhile isWsC).dropWhile isDigitC).dropWhile isWsC).takeWhile
                isAlphaC ≠ [] := by
            simpa [List.isEmpty_iff] using h2
          have hd1 : 1 ≤ ((cs.dropWhile isWsC).takeWhile isDigitC).length :=
            List.length_pos.mpr hdne
          have hl1 : 1 ≤
              ((((cs.dropWhile isWsC).dropWhile isDigitC).dropWhile isWsC).takeWhile
                isAlphaC).length :=
            List.length_pos.mpr hlne
          have hrl : rest.length =
              ((((cs.dropWhile isWsC).dropWhile isDigitC).dropWhile isWsC).dropWhile
                isAlphaC).length := by rw [← hrest]
          omega
      · exact absurd h (by simp)

/-! ## RawTerm lemmas -/

theorem RawTerm.chars_ne_nil {t : RawTerm} (h : t.OK) : t.chars ≠ [] := by
  obtain ⟨-, hdne, -⟩ := h
  simp only [RawTerm.chars, ne_eq, List.append_eq_nil]
  intro hc
  exact hdne hc.1.1.2

theorem RawTerm.head_not_alpha {t : RawTerm} (h : t.OK) :
    ∀ z c l, t.chars ++ z = c :: l → isAlphaC c = false := by
  intro z c l hl
  obtain ⟨hw1, hdne, hdall, -, -, -, -⟩ := h
  cases hws1 : t.ws1 with
  | nil =>
    obtain ⟨d, ds', hds⟩ := List.exists_cons_of_ne_nil hdne
    rw [RawTerm.chars, hws1, hds] at hl
    simp only [List.nil_append, List.cons_append, List.append_assoc,
      List.cons.injEq] at hl
    rw [← hl.1]
    exact digit_not_alpha (hdall d (by rw [hds]; simp))
  | cons w ws' =>
    rw [RawTerm.chars, hws1] at hl
    simp only [List.cons_append, List.append_assoc, List.cons.injEq] at hl
    rw [← hl.1]
    exact ws_not_alpha (hw1 w (by rw [hws1]; simp))

theorem RawTerm.two_le_chars_length {t : RawTerm} (h : t.OK) :
    2 ≤ t.chars.length := by
  obtain ⟨-, hdne, -, -, hlne, -, -⟩ := h
  have h1 : 1 ≤ t.digits.length := List.length_pos.mpr hdne
  have h2 : 1 ≤ t.label.length := List.length_pos.mpr hlne
  simp only [RawTerm.chars, List.length_append]
  omega

theorem flatten_chars_ne_nil {t : RawTerm} {ts : List RawTerm} (h : t.OK) :
    ((t :: ts).map RawTerm.chars).flatten ≠ [] := by
  simp only [List.map_cons, List.flatten_cons, ne_eq, List.append_eq_nil, not_and]
  intro hc
  exact absurd hc (RawTerm.chars_ne_nil h)

/-! ## Span-level parser lemmas -/

theorem parseTerms_step_last {f : Nat} {cs : List Char} {t : Nat × UnitKind}
    (h : parseTerm cs = .ok (t, [])) :
    parseTerms (f + 1) cs = .ok [t] := by
  simp [parseTerms, h]

theorem parseTerms_step_cons {f : Nat} {cs rest : List Char} {t : Nat × UnitKind}
    (h : parseTerm cs = .ok (t, rest)) (hne : rest ≠ [])
    {qs : List (Nat × UnitKind)} (h2 : parseTerms f rest = .ok qs) :
    parseTerms (f + 1) cs = .ok (t :: qs) := by
  have hemp : rest.isEmpty = false := by simpa [List.isEmpty_iff] using hne
  simp [parseTerms, h, hemp, h2]

theorem parseTerms_sound :
    ∀ fuel cs qs, parseTerms fuel cs = .ok qs → IsSpan cs := by
  intro fuel
  induction fuel with
  | zero =>
    intro cs qs h
    simp [parseTerms] at h
  | succ f ih =>
    intro cs qs h
    simp only [parseTerms] at h
    split at h
    · exact absurd h (by simp)
    · rename_i t rest heq
      obtain ⟨q, u⟩ := t
      obtain ⟨w1, ds, w2, ls, hcs, hw1, hdne, hdall, hw2, hlne, hlall, hres, -, -⟩ :=
        parseTerm_ok_decomp heq
      split at h
      · rename_i hempty
        have hrest : rest = [] := by simpa [List.isEmpty_iff] using hempty
        refine ⟨[⟨w1, ds, w2, ls⟩], by simp, ?_, ?_⟩
        · intro t ht
          simp only [List.mem_singleton] at ht
          subst ht
          exact ⟨hw1, hdne, hdall, hw2, hlne, hlall, by simp [hres]⟩
        · rw [hcs, hrest]
          simp [RawTerm.chars, List.append_assoc]
      · split at h
        · exact absurd h (by simp)
        · rename_i ts' heq2
          obtain ⟨ts, htsne, htsok, hjoin⟩ := ih rest ts' heq2
          refine ⟨⟨w1, ds, w2, ls⟩ :: ts, by simp, ?_, ?_⟩
          · intro t ht
            rcases List.mem_cons.mp ht with ht | ht
            · subst ht
              exact ⟨hw1, hdne, hdall, hw2, hlne, hlall, by simp [hres]⟩
            · exact htsok t ht
          · rw [hcs, hjoin]
            simp [RawTerm.chars, List.append_assoc]

theorem parseTerms_complete :
    ∀ ts : List RawTerm, ∀ fuel cs, (∀ t ∈ ts, t.OK) → ts ≠ [] →
      cs = (ts.map RawTerm.chars).flatten → cs.length ≤ fuel →
      ∃ qs, parseTerms fuel cs = .ok qs := by
  intro ts
  induction ts with
  | nil =>
    intro fuel cs _ hne
    exact absurd rfl hne
  | cons t ts ih =>
    intro fuel cs hok _ hcs hlen
    have hokt := hok t (by simp)
    obtain ⟨hw1, hdne, hdall, hw2, hlne, hlall, hres⟩ := hokt
    obtain ⟨u, hu⟩ := Option.isSome_iff_exists.mp hres
    have hcs' : cs =
        t.ws1 ++ (t.digits ++ (t.ws2 ++ (t.label ++ (ts.map RawTerm.chars).flatten))) := by
      rw [hcs]
      simp [RawTerm.chars, List.append_assoc]
    have hrest : ∀ c l, (ts.map RawTerm.chars).flatten = c :: l → isAlphaC c = false := by
      intro c l hcl
      cases ts with
      | nil => simp at hcl
      | cons t2 ts2 =>
        simp only [List.map_cons, List.flatten_cons] at hcl
        exact RawTerm.head_not_alpha (hok t2 (by simp)) _ c l hcl
    have hterm := parseTerm_exact t.ws1 t.digits t.ws2 t.label
      ((ts.map RawTerm.chars).flatten) u hw1 hdne hdall hw2 hlne hlall hu hrest
    have hcl : 2 ≤ t.chars.length := RawTerm.two_le_chars_length (hok t (by simp))
    have hlencs : cs.length =
        t.chars.length + ((ts.map RawTerm.chars).flatten).length := by
      rw [hcs]
      simp
    have htermcs : parseTerm cs =
        .ok ((digitsToNat t.digits, u), (ts.map RawTerm.chars).flatten) := by
      rw [hcs']
      exact hterm
    cases fuel with
    | zero => omega
    | succ f =>
      cases hts : ts with
      | nil =>
        rw [hts] at htermcs
        simp only [List.map_nil, List.flatten_nil] at htermcs
        exact ⟨_, parseTerms_step_last htermcs⟩
      | cons t2 ts2 =>
        have hne2 : ((ts.map RawTerm.chars).flatten) ≠ [] := by
          rw [hts]
          exact flatten_chars_ne_nil (hok t2 (by simp [hts]))
        obtain ⟨qs', hqs'⟩ := ih f ((ts.map RawTerm.chars).flatten)
          (fun t' ht' => hok t' (by simp [ht'])) (by simp [hts]) rfl (by omega)
        exact ⟨_, parseTerms_step_cons htermcs hne2 hqs'⟩

theorem parseTerm_err_seg {cs : List Char} {e : ParseErr}
    (h : parseTerm cs = .error e) : SubSeg e.offending cs := by
  simp only [parseTerm] at h
  split at h
  · simp only [Except.error.injEq] at h
    subst h
    exact ⟨cs.takeWhile isWsC, [], by
      simp [List.takeWhile_append_dropWhile]⟩
  · split at h
    · simp only [Except.error.injEq] at h
      subst h
      exact ⟨cs.takeWhile isWsC, [], by
        simp [List.takeWhile_append_dropWhile]⟩
    · split at h
      · exact absurd h (by simp)
      · simp only [Except.error.injEq] at h
        subst h
        refine ⟨cs.takeWhile isWsC ++ ((cs.dropWhile isWsC).takeWhile isDigitC ++
          ((cs.dropWhile isWsC).dropWhile isDigitC).takeWhile isWsC),
          (((cs.dropWhile isWsC).dropWhile isDigitC).dropWhile isWsC).dropWhile
            isAlphaC, ?_⟩
        conv_lhs => rw [← List.takeWhile_append_dropWhile isWsC cs]
        conv_lhs => rw [← List.takeWhile_append_dropWhile isDigitC (cs.dropWhile isWsC)]
        conv_lhs =>
          rw [← List.takeWhile_append_dropWhile isWsC
            ((cs.dropWhile isWsC).dropWhile isDigitC)]
        conv_lhs =>
          rw [← List.takeWhile_append_dropWhile isAlphaC
            (((cs.dropWhile isWsC).dropWhile isDigitC).dropWhile isWsC)]
        simp [List.append_assoc]

theorem parseTerms_err_seg :
    ∀ fuel cs e, parseTerms fuel cs = .error e → SubSeg e.offending cs := by
  intro fuel
  induction fuel with
  | zero =>
    intro cs e h
    simp only [parseTerms, Except.error.injEq] at h
    subst h
    exact ⟨[], [], by simp⟩
  | succ f ih =>
    intro cs e h
    simp only [parseTerms] at h
    split at h
    · rename_i e' heq
      simp only [Except.error.injEq] at h
      subst h
      exact parseTerm_err_seg heq
    · rename_i t rest heq
      obtain ⟨q, u⟩ := t
      split at h
      · exact absurd h (by simp)
      · split at h
        · rename_i e' heq2
          simp only [Except.error.injEq] at h
          subst h
          obtain ⟨w1, ds, w2, ls, hcs, -⟩ := parseTerm_ok_decomp heq
          have hsub : SubSeg rest cs := ⟨w1 ++ (ds ++ w2 ++ ls), [], by
            rw [hcs]; simp [List.append_assoc]⟩
          exact SubSeg.trans (ih rest e' heq2) hsub
        · exact absurd h (by simp)

/-! ## Greedy decomposition lemmas -/

theorem unitSeconds_pos (u : UnitKind) : 0 < unitSeconds u := by
  cases u <;> simp [unitSeconds]

theorem flatChainAux_sum :
    ∀ us r, compsSum (flatChainAux r us) + modChain r us = r := by
  intro us
  induction us with
  | nil =>
    intro r
    simp [flatChainAux, compsSum, modChain]
  | cons u us ih =>
    intro r
    simp only [flatChainAux, compsSum_cons, modChain, List.foldl_cons]
    have ih' := ih (r % unitSeconds u)
    simp only [modChain] at ih'
    rw [Nat.add_assoc, ih']
    exact Nat.div_add_mod' r (unitSeconds u)

theorem compsSum_flatChainAux_le (us : List UnitKind) (r : Nat) :
    compsSum (flatChainAux r us) ≤ r := by
  have h := flatChainAux_sum us r
  omega

theorem flatChainAux_decomp :
    ∀ us r pre t suf, flatChainAux r us = pre ++ t :: suf →
      compsSum suf < unitSeconds t.2 := by
  intro us
  induction us with
  | nil =>
    intro r pre t suf h
    simp only [flatChainAux] at h
    exact absurd h (by simp)
  | cons u us ih =>
    intro r pre t suf h
    simp only [flatChainAux] at h
    cases pre with
    | nil =>
      simp only [List.nil_append, List.cons.injEq] at h
      obtain ⟨ht, hsuf⟩ := h
      have hle : compsSum (flatChainAux (r % unitSeconds u) us) ≤ r % unitSeconds u :=
        compsSum_flatChainAux_le us (r % unitSeconds u)
      have hlt : r % unitSeconds u < unitSeconds u := Nat.mod_lt _ (unitSeconds_pos u)
      rw [hsuf] at hle
      have h2 : t.2 = u := by rw [← ht]
      rw [h2]
      omega
    | cons p pre' =>
      simp only [List.cons_append, List.cons.injEq] at h
      exact ih (r % unitSeconds u) pre' t suf h.2

theorem flatChainAux_map_snd : ∀ us r, (flatChainAux r us).map Prod.snd = us := by
  intro us
  induction us with
  | nil => intro r; simp [flatChainAux]
  | cons u us ih => intro r; simp [flatChainAux, ih]

theorem compsSum_filter (l : List (Nat × UnitKind)) :
    compsSum (l.filter (fun t => t.1 != 0)) = compsSum l := by
  induction l with
  | nil => rfl
  | cons t ts ih =>
    by_cases h : t.1 = 0
    · simp [List.filter_cons, h, compsSum_cons, ih]
    · simp [List.filter_cons, h, compsSum_cons, ih]

theorem flatChain_sum (d : Nat) : compsSum (flatChain d) = d := by
  have h := flatChainAux_sum unitsDesc d
  have hm : modChain d unitsDesc = 0 := by
    simp [modChain, unitsDesc, unitSeconds, Nat.mod_one]
  rw [flatChain]
  omega

theorem flatTimeComps_sum (d : Nat) : compsSum (flatTimeComps d) = d := by
  rw [flatTimeComps, compsSum_filter]
  exact flatChain_sum d

theorem flatTimeComps_chain (d : Nat) :
    List.Chain' (fun a b : Nat × UnitKind => unitSeconds b.2 < unitSeconds a.2)
      (flatTimeComps d) := by
  have hmap : (flatChain d).map Prod.snd = unitsDesc := flatChainAux_map_snd unitsDesc d
  have hpair : List.Pairwise (fun a b : UnitKind => unitSeconds b < unitSeconds a)
      unitsDesc := by decide
  rw [← hmap, List.pairwise_map] at hpair
  exact (hpair.filter _).chain'

theorem mem_flatChain_bound (d : Nat) :
    ∀ t ∈ flatChain d, ∀ v, nextLarger t.2 = some v →
      t.1 * unitSeconds t.2 < unitSeconds v := by
  intro t ht v hv
  have hchain : flatChain d =
      [(d / unitSeconds .year, .year),
       (d % unitSeconds .year / unitSeconds .month, .month),
       (d % unitSeconds .year % unitSeconds .month / unitSeconds .week, .week),
       (d % unitSeconds .year % unitSeconds .month % unitSeconds .week /
          unitSeconds .day, .day),
       (d % unitSeconds .year % unitSeconds .month % unitSeconds .week %
          unitSeconds .day / unitSeconds .hour, .hour),
       (d % unitSeconds .year % unitSeconds .month % unitSeconds .week %
          unitSeconds .day % unitSeconds .hour / unitSeconds .minute, .minute),
       (d % unitSeconds .year % unitSeconds .month % unitSeconds .week %
          unitSeconds .day % unitSeconds .hour % unitSeconds .minute /
          unitSeconds .second, .second)] := rfl
  rw [hchain] at ht
  simp only [List.mem_cons, List.not_mem_nil, or_false] at ht
  rcases ht with rfl | rfl | rfl | rfl | rfl | rfl | rfl
  · simp [nextLarger] at hv
  · simp only [nextLarger, Option.some.injEq] at hv
    subst hv
    exact lt_of_le_of_lt (Nat.div_mul_le_self _ _) (Nat.mod_lt _ (by decide))
  · simp only [nextLarger, Option.some.injEq] at hv
    subst hv
    exact lt_of_le_of_lt (Nat.div_mul_le_self _ _) (Nat.mod_lt _ (by decide))
  · simp only [nextLarger, Option.some.injEq] at hv
    subst hv
    exact lt_of_le_of_lt (Nat.div_mul_le_self _ _) (Nat.mod_lt _ (by decide))
  · simp only [nextLarger, Option.some.injEq] at hv
    subst hv
    exact lt_of_le_of_lt (Nat.div_mul_le_self _ _) (Nat.mod_lt _ (by decide))
  · simp only [nextLarger, Option.some.injEq] at hv
    subst hv
    exact lt_of_le_of_lt (Nat.div_mul_le_self _ _) (Nat.mod_lt _ (by decide))
  · simp only [nextLarger, Option.some.injEq] at hv
    subst hv
    exact lt_of_le_of_lt (Nat.div_mul_le_self _ _) (Nat.mod_lt _ (by decide))

/-! ## Formatter-output parsing lemmas -/

theorem unitAbbrev_alpha : ∀ u, isAlphaC (unitAbbrev u) = true := by
  intro u
  cases u <;> decide

theorem resolve_abbrev : ∀ u, resolve [unitAbbrev u] = some u := by
  intro u
  cases u <;> decide

theorem renderComp_not_ws (t : Nat × UnitKind) :
    ∀ c ∈ renderComp t, isWsC c = false := by
  intro c hc
  rw [renderComp] at hc
  rcases List.mem_append.mp hc with hc | hc
  · exact digit_not_ws (natRepr_digits t.1 c hc)
  · simp only [List.mem_singleton] at hc
    subst hc
    exact alpha_not_ws (unitAbbrev_alpha t.2)

theorem renderComp_ne_nil (t : Nat × UnitKind) : renderComp t ≠ [] := by
  simp only [renderComp, ne_eq, List.append_eq_nil, not_and]
  intro h
  exact absurd h (natRepr_ne_nil t.1)

theorem renderComp_head_digit (t : Nat × UnitKind) :
    ∀ z c l, renderComp t ++ z = c :: l → isDigitC c = true := by
  intro z c l h
  obtain ⟨d, ds', hds⟩ := List.exists_cons_of_ne_nil (natRepr_ne_nil t.1)
  rw [renderComp, hds] at h
  simp only [List.cons_append, List.cons.injEq] at h
  rw [← h.1]
  exact natRepr_digits t.1 d (by rw [hds]; simp)

theorem two_le_renderComp_length (t : Nat × UnitKind) :
    2 ≤ (renderComp t).length := by
  have h1 : 1 ≤ (natRepr t.1).length := List.length_pos.mpr (natRepr_ne_nil t.1)
  simp only [renderComp, List.length_append, List.length_singleton]
  omega

theorem parseTerm_render (q : Nat) (u : UnitKind) (rest : List Char)
    (hrest : ∀ c l, rest = c :: l → isAlphaC c = false) :
    parseTerm (renderComp (q, u) ++ rest) = .ok ((q, u), rest) := by
  have h := parseTerm_exact [] (natRepr q) [] [unitAbbrev u] rest u
    (by simp) (natRepr_ne_nil q) (natRepr_digits q) (by simp)
    (by simp) (by intro c hc; simp only [List.mem_singleton] at hc; subst hc;
                  exact unitAbbrev_alpha u)
    (resolve_abbrev u) hrest
  rw [digitsToNat_natRepr] at h
  simpa [renderComp, List.append_assoc] using h

theorem parseTerms_render :
    ∀ comps : List (Nat × UnitKind), ∀ fuel, comps ≠ [] →
      ((comps.map renderComp).flatten).length ≤ fuel →
      parseTerms fuel ((comps.map renderComp).flatten) = .ok comps := by
  intro comps
  induction comps with
  | nil =>
    intro fuel h
    exact absurd rfl h
  | cons t ts ih =>
    intro fuel _ hlen
    obtain ⟨q, u⟩ := t
    have hflat : (((q, u) :: ts).map renderComp).flatten =
        renderComp (q, u) ++ (ts.map renderComp).flatten := by
      simp
    have h2 : 2 ≤ (renderComp (q, u)).length := two_le_renderComp_length (q, u)
    have hlen2 : (((q, u) :: ts).map renderComp).flatten.length =
        (renderComp (q, u)).length + ((ts.map renderComp).flatten).length := by
      rw [hflat, List.length_append]
    cases fuel with
    | zero => omega
    | succ f =>
      cases ts with
      | nil =>
        have hterm : parseTerm (([(q, u)].map renderComp).flatten) =
            .ok ((q, u), []) := by
          have h0 := parseTerm_render q u []
            (by intro c l hh; exact absurd hh (by simp))
          simpa using h0
        exact parseTerms_step_last hterm
      | cons t2 ts2 =>
        have hrest : ∀ c l, ((t2 :: ts2).map renderComp).flatten = c :: l →
            isAlphaC c = false := by
          intro c l hh
          simp only [List.map_cons, List.flatten_cons] at hh
          exact digit_not_alpha (renderComp_head_digit t2 _ c l hh)
        have hterm : parseTerm ((((q, u) :: t2 :: ts2).map renderComp).flatten) =
            .ok ((q, u), ((t2 :: ts2).map renderComp).flatten) := by
          rw [hflat]
          exact parseTerm_render q u _ hrest
        have hne : ((t2 :: ts2).map renderComp).flatten ≠ [] := by
          simp only [List.map_cons, List.flatten_cons, ne_eq, List.append_eq_nil,
            not_and]
          intro hh
          exact absurd hh (renderComp_ne_nil t2)
        have hih := ih f (by simp) (by omega)
        exact parseTerms_step_cons hterm hne hih

theorem parseTimeSpan_mk {cs : List Char} {ts : List (Nat × UnitKind)}
    (hnws : ∀ c ∈ cs, isWsC c = false) (hne : cs ≠ [])
    (h : parseTerms cs.length cs = .ok ts) :
    parseTimeSpan ⟨cs⟩ = .ok (accumulate ts) := by
  simp only [parseTimeSpan]
  have htrim : trimChars (String.mk cs).data = cs := trimChars_no_ws hnws
  rw [htrim]
  have hemp : cs.isEmpty = false := by simpa [List.isEmpty_iff] using hne
  rw [hemp]
  simp only [Bool.false_eq_true, if_false, h]

theorem parseTimeSpan_ok_le {s : String} {d : Nat}
    (h : parseTimeSpan s = .ok d) : d ≤ maxDuration := by
  simp only [parseTimeSpan] at h
  split at h
  · exact absurd h (by simp)
  · split at h
    · exact absurd h (by simp)
    · rename_i ts heq
      simp only [Except.ok.injEq] at h
      rw [← h]
      exact accumulate_le ts

theorem format_data_no_ws (d : Nat) : ∀ c ∈ (format d).data, isWsC c = false := by
  intro c hc
  by_cases hcomp : (flatTimeComps d).isEmpty = true
  · have hdata : (format d).data = ['0', 's'] := by
      simp only [format, hcomp, if_true]
    rw [hdata] at hc
    simp only [List.mem_cons, List.not_mem_nil, or_false] at hc
    rcases hc with rfl | rfl <;> rfl
  · simp only [format, hcomp, Bool.false_eq_true, if_false] at hc
    obtain ⟨l, hl, hcl⟩ := List.mem_flatten.mp hc
    obtain ⟨t, -, rfl⟩ := List.mem_map.mp hl
    exact renderComp_not_ws t c hcl

theorem parse_format {d : Nat} (hd : d ≤ maxDuration) :
    parseTimeSpan (format d) = .ok d := by
  by_cases hc : flatTimeComps d = []
  · have hsum : compsSum (flatTimeComps d) = d := flatTimeComps_sum d
    rw [hc] at hsum
    simp only [compsSum, List.map_nil, List.sum_nil] at hsum
    rw [← hsum]
    rfl
  · have hcompE : (flatTimeComps d).isEmpty = false := by
      simpa [List.isEmpty_iff] using hc
    have hfmt : format d = ⟨((flatTimeComps d).map renderComp).flatten⟩ := by
      simp [format, hcompE]
    have hnws : ∀ c ∈ ((flatTimeComps d).map renderComp).flatten, isWsC c = false := by
      have := format_data_no_ws d
      rw [hfmt] at this
      exact this
    have hne : ((flatTimeComps d).map renderComp).flatten ≠ [] := by
      obtain ⟨t, ts, hts⟩ := List.exists_cons_of_ne_nil hc
      rw [hts]
      simp only [List.map_cons, List.flatten_cons, ne_eq, List.append_eq_nil, not_and]
      intro hh
      exact absurd hh (renderComp_ne_nil t)
    have hparse := parseTerms_render (flatTimeComps d)
      (((flatTimeComps d).map renderComp).flatten).length hc (by omega)
    rw [hfmt, parseTimeSpan_mk hnws hne hparse, accumulate_eq, flatTimeComps_sum]
    rw [Nat.min_eq_left hd]

/-! ## Claim-specific helper -/

theorem parse_single_unit (n : Nat) (u : UnitKind)
    (h : n * unitSeconds u ≤ maxDuration) :
    parseTimeSpan ⟨natRepr n ++ [unitAbbrev u]⟩ = .ok (n * unitSeconds u) := by
  have hterm : parseTerm (natRepr n ++ [unitAbbrev u]) = .ok ((n, u), []) := by
    have h0 := parseTerm_render n u []
      (by intro c l hh; exact absurd hh (by simp))
    simpa [renderComp] using h0
  have hnws : ∀ c ∈ natRepr n ++ [unitAbbrev u], isWsC c = false := by
    intro c hc
    rcases List.mem_append.mp hc with hc | hc
    · exact digit_not_ws (natRepr_digits n c hc)
    · simp only [List.mem_singleton] at hc
      subst hc
      exact alpha_not_ws (unitAbbrev_alpha u)
  have hne : natRepr n ++ [unitAbbrev u] ≠ [] := by
    intro hh
    exact natRepr_ne_nil n (List.append_eq_nil.mp hh).1
  obtain ⟨k, hk⟩ : ∃ k, (natRepr n ++ [unitAbbrev u]).length = k + 1 :=
    ⟨(natRepr n).length, by simp⟩
  have hterms : parseTerms (natRepr n ++ [unitAbbrev u]).length
      (natRepr n ++ [unitAbbrev u]) = .ok [(n, u)] := by
    rw [hk]
    exact parseTerms_step_last hterm
  rw [parseTimeSpan_mk hnws hne hterms]
  have hacc : accumulate [(n, u)] = n * unitSeconds u := by
    simp only [accumulate, List.foldl_cons, List.foldl_nil, satAdd, Nat.zero_add]
    exact Nat.min_eq_left h
  rw [hacc]

/-! ## Claims -/

/-- C1 counterexample: the claim quantifies over every non-negative integer
`n`, but the accumulator saturates, so for a 20-digit month count the parse
result is `maxDuration`, strictly below `n·30·86400`, and the minute parse
saturates to the same value instead of differing. -/
theorem month_minute_saturation_counterexample :
    parseTimeSpan "10000000000000000000M" = .ok maxDuration ∧
    maxDuration < 10000000000000000000 * (30 * 86400) ∧
    parseTimeSpan "10000000000000000000m" =
      parseTimeSpan "10000000000000000000M" :=
  ⟨by rfl, by decide, by rfl⟩

/-- C1 (amended): lowercase `m` resolves to Minute and uppercase `M` to
Month, and for every `n` whose month total is representable, `parse "nM"`
yields `n·30·86400` seconds, `parse "nm"` yields `n·60` seconds, and the
two differ whenever `0 < n`. -/
theorem month_minute_case_sensitivity :
    resolve ['m'] = some UnitKind.minute ∧
    resolve ['M'] = some UnitKind.month ∧
    ∀ n : Nat, n * (30 * 86400) ≤ maxDuration →
      parseTimeSpan ⟨natRepr n ++ ['M']⟩ = .ok (n * (30 * 86400)) ∧
      parseTimeSpan ⟨natRepr n ++ ['m']⟩ = .ok (n * 60) ∧
      (0 < n → n * 60 < n * (30 * 86400)) := by
  refine ⟨rfl, rfl, ?_⟩
  intro n hn
  have hm := parse_single_unit n .month hn
  have hmin := parse_single_unit n .minute
    (le_trans (by simp only [unitSeconds]; omega) hn)
  refine ⟨hm, hmin, ?_⟩
  intro hpos
  have : 60 < 30 * 86400 := by decide
  exact (Nat.mul_lt_mul_left hpos).mpr this

/-- C1 witness: the amended statement applied at the concrete count 4
(`4M` is four months, `4m` is four minutes). -/
theorem month_minute_case_sensitivity_witness :
    parseTimeSpan ⟨natRepr 4 ++ ['M']⟩ = .ok (4 * (30 * 86400)) ∧
    parseTimeSpan ⟨natRepr 4 ++ ['m']⟩ = .ok (4 * 60) ∧
    4 * 60 < 4 * (30 * 86400) := by
  obtain ⟨h1, h2, h3⟩ :=
    month_minute_case_sensitivity.2.2 4 (by decide)
  exact ⟨h1, h2, h3 (by decide)⟩

/-- C2: whenever `parse` succeeds on an input, reparsing the formatted
result succeeds and preserves the total-seconds value. -/
theorem parse_format_roundtrip (s : String) (d : Nat)
    (h : parseTimeSpan s = .ok d) : parseTimeSpan (format d) = .ok d :=
  parse_format (parseTimeSpan_ok_le h)

/-- C2 witness: `"90m"` parses to 5400 seconds, formats as `"1h30m"`, and
reparses to the same 5400 seconds. -/
theorem parse_format_roundtrip_witness :
    parseTimeSpan "90m" = .ok 5400 ∧ parseTimeSpan (format 5400) = .ok 5400 :=
  ⟨by rfl, parse_format_roundtrip "90m" 5400 (by rfl)⟩

/-- C3: the accumulator sums `quantity × seconds-per-unit` with saturating
arithmetic — the result is the sum capped at `maxDuration`, never exceeds
`maxDuration`, and an absurdly large year count parses successfully to
exactly `maxDuration`. -/
theorem accumulator_saturates :
    (∀ ts : List (Nat × UnitKind),
      accumulate ts = min (compsSum ts) maxDuration) ∧
    (∀ ts : List (Nat × UnitKind), accumulate ts ≤ maxDuration) ∧
    parseTimeSpan "400000000000000Y" = .ok maxDuration :=
  ⟨accumulate_eq, accumulate_le, by rfl⟩

/-- C4: `parse` succeeds exactly when the trimmed input is a concatenation
of one or more well-formed (integer, unit-label) terms; every error carries
an offending substring occurring in the trimmed input, and empty or
whitespace-only input yields the "no terms found" error. -/
theorem parse_error_iff_malformed (s : String) :
    ((∃ d, parseTimeSpan s = .ok d) ↔ IsSpan (trimChars s.data)) ∧
    (∀ e, parseTimeSpan s = .error e → SubSeg e.offending (trimChars s.data)) ∧
    (trimChars s.data = [] → parseTimeSpan s = .error ⟨"no terms found", []⟩) := by
  refine ⟨⟨?_, ?_⟩, ?_, ?_⟩
  · rintro ⟨d, hd⟩
    simp only [parseTimeSpan] at hd
    split at hd
    · exact absurd hd (by simp)
    · split at hd
      · exact absurd hd (by simp)
      · rename_i ts heq
        exact parseTerms_sound _ _ _ heq
  · intro hspan
    have hne : trimChars s.data ≠ [] := by
      obtain ⟨ts, htsne, htsok, hjoin⟩ := hspan
      obtain ⟨t, ts', rfl⟩ := List.exists_cons_of_ne_nil htsne
      rw [hjoin]
      exact flatten_chars_ne_nil (htsok t (by simp))
    obtain ⟨ts, htsne, htsok, hjoin⟩ := hspan
    obtain ⟨qs, hqs⟩ := parseTerms_complete ts (trimChars s.data).length
      (trimChars s.data) htsok htsne hjoin (le_refl _)
    refine ⟨accumulate qs, ?_⟩
    simp only [parseTimeSpan]
    have hemp : (trimChars s.data).isEmpty = false := by
      simpa [List.isEmpty_iff] using hne
    rw [hemp]
    simp only [Bool.false_eq_true, if_false, hqs]
  · intro e he
    simp only [parseTimeSpan] at he
    split at he
    · simp only [Except.error.injEq] at he
      subst he
      exact ⟨[], trimChars s.data, by simp⟩
    · split at he
      · rename_i e' heq
        simp only [Except.error.injEq] at he
        subst he
        exact parseTerms_err_seg _ _ _ heq
      · exact absurd he (by simp)
  · intro hempty
    simp only [parseTimeSpan]
    have hemp : (trimChars s.data).isEmpty = true := by
      simp [List.isEmpty_iff, hempty]
    rw [hemp]
    simp

/-- C4 witness: `"1h xx"` fails with the offending substring `"xx"`, which
occurs in the trimmed input. -/
theorem parse_error_iff_malformed_witness :
    parseTimeSpan "1h xx" = .error ⟨"expected integer", ['x', 'x']⟩ ∧
    SubSeg ['x', 'x'] (trimChars "1h xx".data) :=
  ⟨by rfl, (parse_error_iff_malformed "1h xx").2.1
    ⟨"expected integer", ['x', 'x']⟩ (by rfl)⟩

/-- C5: the full greedy chain sums back to the duration; after each chain
entry the leftover (the sum of the later entries) is smaller than that
entry's unit, so each quantity is the maximal whole multiple fitting the
remainder; the emitted components also sum back to the duration, are
strictly descending in unit size, have positive quantities, and each
component's total stays below the next larger unit. -/
theorem flatTime_greedy_decomposition (d : Nat) :
    compsSum (flatChain d) = d ∧
    (∀ pre t suf, flatChain d = pre ++ t :: suf →
      compsSum suf < unitSeconds t.2) ∧
    compsSum (flatTimeComps d) = d ∧
    List.Chain' (fun a b : Nat × UnitKind => unitSeconds b.2 < unitSeconds a.2)
      (flatTimeComps d) ∧
    (∀ t ∈ flatTimeComps d, 0 < t.1) ∧
    (∀ t ∈ flatTimeComps d, ∀ v, nextLarger t.2 = some v →
      t.1 * unitSeconds t.2 < unitSeconds v) := by
  refine ⟨flatChain_sum d, ?_, flatTimeComps_sum d, flatTimeComps_chain d, ?_, ?_⟩
  · intro pre t suf h
    exact flatChainAux_decomp unitsDesc d pre t suf h
  · intro t ht
    simp only [flatTimeComps] at ht
    have h2 := (List.mem_filter.mp ht).2
    simp only [bne_iff_ne, ne_eq] at h2
    exact Nat.pos_of_ne_zero h2
  · intro t ht v hv
    simp only [flatTimeComps] at ht
    exact mem_flatChain_bound d t (List.mem_filter.mp ht).1 v hv

/-- C5 witness: the decomposition of 1Y1M1w1d1h1m1s worth of seconds; its
chain sums back, the leftover after the month entry is below one month,
and the minute component stays below one hour. -/
theorem flatTime_greedy_decomposition_witness :
    compsSum (flatChain 34822861) = 34822861 ∧
    compsSum [(1, UnitKind.week), (1, UnitKind.day), (1, UnitKind.hour),
      (1, UnitKind.minute), (1, UnitKind.second)] < unitSeconds UnitKind.month ∧
    1 * unitSeconds UnitKind.minute < unitSeconds UnitKind.hour := by
  refine ⟨(flatTime_greedy_decomposition 34822861).1, ?_, ?_⟩
  · exact (flatTime_greedy_decomposition 34822861).2.1
      [(1, UnitKind.year)] (1, UnitKind.month)
      [(1, UnitKind.week), (1, UnitKind.day), (1, UnitKind.hour),
       (1, UnitKind.minute), (1, UnitKind.second)] (by rfl)
  · exact (flatTime_greedy_decomposition 34822861).2.2.2.2.2
      (1, UnitKind.minute) (by decide) UnitKind.hour (by rfl)

/-- C6 counterexample: for two saturating minute terms the parse result is
`maxDuration`, strictly below the sum of the two terms' contributions, so
the result is not always the exact sum over all terms. -/
theorem terms_additive_counterexample :
    parseTimeSpan "10000000000000000000m10000000000000000000m" = .ok maxDuration ∧
    maxDuration < 10000000000000000000 * 60 + 10000000000000000000 * 60 :=
  ⟨by rfl, by decide⟩

/-- C6 (amended): terms sharing a unit are additive, not overriding — the
accumulated duration is the sum of `quantity × seconds-per-unit` over all
terms capped at `maxDuration`; in particular `parse "1h1h"` yields
`2·3600` seconds, which exceeds `1·3600`. -/
theorem terms_additive :
    (∀ ts : List (Nat × UnitKind),
      accumulate ts = min (compsSum ts) maxDuration) ∧
    parseTimeSpan "1h1h" = .ok (2 * 3600) ∧
    1 * 3600 < 2 * 3600 :=
  ⟨accumulate_eq, by rfl, by decide⟩

/-- C7: formatting is total — for every duration value the formatted text
is well-defined and nonempty. -/
theorem format_total (d : Nat) : 0 < (format d).length := by
  by_cases hcomp : (flatTimeComps d).isEmpty = true
  · simp only [format, hcomp, if_true]
    decide
  · simp only [format, hcomp, Bool.false_eq_true, if_false]
    have hne : flatTimeComps d ≠ [] := by simpa [List.isEmpty_iff] using hcomp
    obtain ⟨t, ts, hts⟩ := List.exists_cons_of_ne_nil hne
    have h2 := two_le_renderComp_length t
    have hlen : (String.mk (((flatTimeComps d).map renderComp).flatten)).length =
        (((flatTimeComps d).map renderComp).flatten).length := rfl
    rw [hlen, hts]
    simp only [List.map_cons, List.flatten_cons, List.length_append]
    omega

/-- C8: the zero duration formats as the fixed zero representation `"0s"`,
a nonempty string. -/
theorem format_zero : format 0 = "0s" ∧ 0 < (format 0).length :=
  ⟨by rfl, by decide⟩

/-- C9: when `process_subcommand` fails — a declined `EditPeriod` or
`Remove` confirmation bails with "aborted", a missing required argument in
non-interactive mode errors, a failed interactive duration parse
propagates — `main` returns before the state write, so the persisted state
file is unchanged and no write occurs on any error. -/
theorem error_leaves_state_unchanged {σ : Type} (eff : Effects σ)
    (ht : σ → StateTransition → Except PracErr σ)
    (ps : String → Except PracErr σ) (fresh : σ)
    (ser : σ → String) (uv : σ → σ)
    (file : Option String) (cmd : SubCommand) (st : σ) :
    (∀ e, (runMain eff ht ps fresh ser uv file cmd).outcome = .error e →
      (runMain eff ht ps fresh ser uv file cmd).file = file ∧
      (runMain eff ht ps fresh ser uv file cmd).wrote = false) ∧
    (∀ nm per, eff.confirm (editPeriodConfirmPrompt nm (format per)) = .ok false →
      processSubcommand eff ht st (.editPeriod (some nm) (some per) false) =
        .error ⟨"aborted"⟩) ∧
    (∀ nm, eff.confirm (removeConfirmPrompt nm) = .ok false →
      processSubcommand eff ht st (.remove (some nm) false) =
        .error ⟨"aborted"⟩) ∧
    (∀ per, processSubcommand eff ht st (.add none per false) =
      .error ⟨"no practice name provided"⟩) ∧
    (∀ nm txt pe, eff.inputLine addNamePrompt = .ok nm →
      eff.inputLine (periodPrompt nm) = .ok txt →
      parseTimeSpan txt = .error pe →
      processSubcommand eff ht st (.add none none true) = .error ⟨pe.msg⟩) := by
  refine ⟨?_, ?_, ?_, ?_, ?_⟩
  · intro e he
    cases hparse : (match file with
        | some content => ps content
        | none => Except.ok fresh) with
    | error e0 =>
      have hrm : runMain eff ht ps fresh ser uv file cmd = ⟨.error e0, file, false⟩ := by
        simp [runMain, hparse]
      rw [hrm]
      exact ⟨rfl, rfl⟩
    | ok st0 =>
      cases hproc : processSubcommand eff ht st0 cmd with
      | error e1 =>
        have hrm : runMain eff ht ps fresh ser uv file cmd =
            ⟨.error e1, file, false⟩ := by
          simp [runMain, hparse, hproc]
        rw [hrm]
        exact ⟨rfl, rfl⟩
      | ok st1 =>
        have hrm : runMain eff ht ps fresh ser uv file cmd =
            ⟨.ok (), some (ser (uv st1)), true⟩ := by
          simp [runMain, hparse, hproc]
        rw [hrm] at he
        exact absurd he (by simp)
  · intro nm per hconf
    simp [processSubcommand, require, hconf]
  · intro nm hconf
    simp [processSubcommand, require, hconf]
  · intro per
    simp [processSubcommand, require]
  · intro nm txt pe h1 h2 h3
    simp [processSubcommand, getTimeSpanInteractive, h1, h2, h3]

/-- C9 witness: with a declining confirmation oracle, removing a practice
aborts and the state file content is untouched with no write. -/
theorem error_leaves_state_unchanged_witness :
    (runMain effDecline htId psConst 7 serShow uvSucc (some "st")
      (.remove (some "steno") false)).file = some "st" ∧
    (runMain effDecline htId psConst 7 serShow uvSucc (some "st")
      (.remove (some "steno") false)).wrote = false :=
  (error_leaves_state_unchanged effDecline htId psConst 7 serShow uvSucc
    (some "st") (.remove (some "steno") false) 7).1 ⟨"aborted"⟩ (by rfl)

/-- C10: every successful invocation writes the state file with the
version-updated serialised state; in particular the read-only `List` and
`StateLocation` subcommands still rewrite the file from the unchanged
state rather than leaving it untouched. -/
theorem success_rewrites_statefile {σ : Type} (eff : Effects σ)
    (ht : σ → StateTransition → Except PracErr σ)
    (ps : String → Except PracErr σ) (fresh : σ)
    (ser : σ → String) (uv : σ → σ)
    (file : Option String) (cmd : SubCommand) :
    ((runMain eff ht ps fresh ser uv file cmd).outcome = .ok () →
      (runMain eff ht ps fresh ser uv file cmd).wrote = true ∧
      ∃ st1, (runMain eff ht ps fresh ser uv file cmd).file =
        some (ser (uv st1))) ∧
    (∀ content st c p dgr, file = some content → ps content = .ok st →
      eff.listPractices st c p dgr = .ok () →
      runMain eff ht ps fresh ser uv file (.list c p dgr) =
        ⟨.ok (), some (ser (uv st)), true⟩) ∧
    (∀ content st, file = some content → ps content = .ok st →
      runMain eff ht ps fresh ser uv file .stateLocation =
        ⟨.ok (), some (ser (uv st)), true⟩) := by
  refine ⟨?_, ?_, ?_⟩
  · intro hok
    cases hparse : (match file with
        | some content => ps content
        | none => Except.ok fresh) with
    | error e0 =>
      have hrm : runMain eff ht ps fresh ser uv file cmd = ⟨.error e0, file, false⟩ := by
        simp [runMain, hparse]
      rw [hrm] at hok
      exact absurd hok (by simp)
    | ok st0 =>
      cases hproc : processSubcommand eff ht st0 cmd with
      | error e1 =>
        have hrm : runMain eff ht ps fresh ser uv file cmd =
            ⟨.error e1, file, false⟩ := by
          simp [runMain, hparse, hproc]
        rw [hrm] at hok
        exact absurd hok (by simp)
      | ok st1 =>
        have hrm : runMain eff ht ps fresh ser uv file cmd =
            ⟨.ok (), some (ser (uv st1)), true⟩ := by
          simp [runMain, hparse, hproc]
        rw [hrm]
        exact ⟨rfl, st1, rfl⟩
  · intro content st c p dgr hfile hps hlist
    subst hfile
    simp [runMain, hps, processSubcommand, hlist]
  · intro content st hfile hps
    subst hfile
    simp [runMain, hps, processSubcommand]

/-- C10 witness: a `StateLocation` invocation over an existing state file
succeeds and rewrites the file with the version-updated serialised
state. -/
theorem success_rewrites_statefile_witness :
    runMain effDecline htId psConst 7 serShow uvSucc (some "st") .stateLocation =
      ⟨.ok (), some (serShow (uvSucc 7)), true⟩ :=
  (success_rewrites_statefile effDecline htId psConst 7 serShow uvSucc
    (some "st") .stateLocation).2.2 "st" 7 rfl (by rfl)
